import Mathlib

/-!
# State-variable shadowing detector: a shallow embedding

This file embeds `slither/detectors/shadowing/state.py` (class `StateShadowing`)
in Lean 4 and proves the specified properties of `detect_shadowing` and `_detect`.

The contract graph consumed by the detector is modelled by plain structures:
a `Variable` carries its name, a reference to its owning contract (`v.contract`
in the Python source; `none` models a dangling owner), and an opaque source
location string.  A contract carries the variables visible in it (in slither,
`contract.vars` includes inherited variables, which is why the source
filters by `v.contract == contract`), its functions and modifiers (of which
only the `is_implemented` flag is consulted), and `inheritance`, the ordered
list of its ancestor contracts.  Contract identity (`==` on contract objects
in Python, which is reference identity) is modelled by a `ContractRef` value
that is unique per contract in well-formed graphs.
-/

namespace Slither

/-- Identity of a contract: stands for the Python object reference.  Two
distinct contract objects have distinct `ContractRef`s in a well-formed graph. -/
structure ContractRef where
  id : Nat
  name : String
deriving DecidableEq

/-- A state variable: `name`, owning contract reference (`v.contract` in the
source; `none` models a variable with no owning contract at all), and the
opaque `source_mapping_str` used only for reporting. -/
structure Variable where
  name : String
  contract : Option ContractRef
  source_mapping_str : String
deriving DecidableEq

/-- A function or modifier; the detector only reads its `is_implemented` flag. -/
structure Func where
  is_implemented : Bool
deriving DecidableEq

/-- An ancestor contract as seen through `contract.inheritance`: the detector
reads its `variables`, `functions` and `modifiers` and compares owner
references against it, but never reads the ancestor's own `inheritance`. -/
structure FatherContract where
  ref : ContractRef
  vars : List Variable
  functions : List Func
  modifiers : List Func
deriving DecidableEq

/-- The contract under analysis: its identity, visible variables (own and
inherited), functions, modifiers, and the ordered ancestor list
`contract.inheritance` (already transitively expanded and deduplicated by
the slither front end). -/
structure Contract where
  ref : ContractRef
  vars : List Variable
  functions : List Func
  modifiers : List Func
  inheritance : List FatherContract
deriving DecidableEq

/-- `any(f.is_implemented for f in father.functions + father.modifiers)`:
the liveness test applied to each ancestor in `detect_shadowing`. -/
def fatherIsLive (father : FatherContract) : Bool :=
  (father.functions ++ father.modifiers).any (fun f => f.is_implemented)

/-- The `variables_fathers` list built by the first loop of
`detect_shadowing`: for each ancestor in `contract.inheritance`, in order,
if some function or modifier of it is implemented, append the ancestor's
variables that it directly owns (`v.contract == father`). -/
def variables_fathers (contract : Contract) : List Variable :=
  (contract.inheritance.filter fatherIsLive).flatMap
    (fun father => father.vars.filter (fun v => v.contract == some father.ref))

/-- `[v for v in contract.vars if v.contract == contract]`: the variables
the analyzed contract directly owns. -/
def own_variables (contract : Contract) : List Variable :=
  contract.vars.filter (fun v => v.contract == some contract.ref)

/-- The second loop of `detect_shadowing`: for each directly-owned variable,
collect the same-named `variables_fathers` entries; when non-empty, emit the
group `[var] + shadow`. -/
def detect_shadowing (contract : Contract) : List (List Variable) :=
  (own_variables contract).filterMap (fun var =>
    let shadow := (variables_fathers contract).filter (fun v => v.name == var.name)
    if shadow.isEmpty then none else some (var :: shadow))

/-! ## The `_detect` batch driver and its diagnostic records -/

/-- Modelled from the spec: `generate_json_result` / `add_variables_to_json`
live in `AbstractDetector`, outside the provided source.  Per §4.3 of the
spec, a diagnostic entry is a record with the rendered info text and the
ordered list of variables of the group, preserving group order. -/
structure JsonResult where
  info : String
  vars : List Variable
deriving DecidableEq

/-- Modelled from the spec: `generate_json_result(info)` creates a fresh
diagnostic record carrying the info text and no variables yet. -/
def generate_json_result (info : String) : JsonResult :=
  { info := info, vars := [] }

/-- Modelled from the spec: `add_variables_to_json(variables, json)` appends
the group's variables to the record, preserving their order. -/
def add_variables_to_json (vs : List Variable) (j : JsonResult) : JsonResult :=
  { j with vars := j.vars ++ vs }

/-- `shadow.contract.name` as rendered by `_detect`; total by mapping a
missing owner to the empty string (the source never reaches that case,
since every variable in a group passed an ownership filter). -/
def variable_contract_name (v : Variable) : String :=
  match v.contract with
  | some ref => ref.name
  | none => ""

/-- The header line `'_._ (_) shadows:\n'` formatted for the shadowing
variable in `_detect`. -/
def shadow_header (shadow : Variable) : String :=
  variable_contract_name shadow ++ "." ++ shadow.name ++ " (" ++
    shadow.source_mapping_str ++ ") shadows:\n"

/-- One `'\t- _._ (_)\n'` line for a shadowed variable in `_detect`. -/
def shadowed_line (var : Variable) : String :=
  "\t- " ++ variable_contract_name var ++ "." ++ var.name ++ " (" ++
    var.source_mapping_str ++ ")\n"

/-- The diagnostic record built by the body of `_detect` for one group
`all_variables = [shadow] + variables`: render the info text, create the
json record, attach the group's variables.  Groups are never empty; the
`[]` case is dead code supplied only to make the match total. -/
def group_result (all_variables : List Variable) : JsonResult :=
  match all_variables with
  | [] => add_variables_to_json [] (generate_json_result "")
  | shadow :: rest =>
      let info := rest.foldl (fun acc var => acc ++ shadowed_line var) (shadow_header shadow)
      add_variables_to_json (shadow :: rest) (generate_json_result info)

/-- `StateShadowing._detect`: fold over `self.contracts`, run
`detect_shadowing` on each, and append one diagnostic record per group. -/
def _detect (contracts : List Contract) : List JsonResult :=
  contracts.foldl (fun results c =>
    let shadowing := detect_shadowing c
    if shadowing.isEmpty then results
    else shadowing.foldl (fun results all_variables =>
      results ++ [group_result all_variables]) results) []

/-! ## Concrete contract graphs used as witnesses

The `BaseContract` / `DerivedContract` pair reproduces the exploit scenario
from the detector's wiki text: `BaseContract` declares `owner` and an
implemented modifier `isOwner`; `DerivedContract` inherits it and redeclares
`owner`. -/

def baseRef : ContractRef := ⟨0, "BaseContract"⟩

def derivedRef : ContractRef := ⟨1, "DerivedContract"⟩

def base_owner : Variable := ⟨"owner", some baseRef, "state.sol#2"⟩

def derived_owner : Variable := ⟨"owner", some derivedRef, "state.sol#12"⟩

def isOwnerModifier : Func := ⟨true⟩

def BaseContract : FatherContract := ⟨baseRef, [base_owner], [], [isOwnerModifier]⟩

def DerivedContract : Contract :=
  ⟨derivedRef, [base_owner, derived_owner], [⟨true⟩, ⟨true⟩], [], [BaseContract]⟩

/-! ## Basic membership lemmas about the embedding -/

/-- Membership in the `variables_fathers` list: exactly the variables owned
by some live ancestor of the contract. -/
lemma mem_variables_fathers {contract : Contract} {w : Variable} :
    w ∈ variables_fathers contract ↔
      ∃ father ∈ contract.inheritance, fatherIsLive father = true ∧
        w ∈ father.vars ∧ w.contract = some father.ref := by
  simp only [variables_fathers, List.mem_flatMap, List.mem_filter, beq_iff_eq]
  constructor
  · rintro ⟨father, ⟨hmem, hlive⟩, hw, hown⟩
    exact ⟨father, hmem, hlive, hw, hown⟩
  · rintro ⟨father, hmem, hlive, hw, hown⟩
    exact ⟨father, ⟨hmem, hlive⟩, hw, hown⟩

/-- Membership in `own_variables`. -/
lemma mem_own_variables {contract : Contract} {v : Variable} :
    v ∈ own_variables contract ↔ v ∈ contract.vars ∧ v.contract = some contract.ref := by
  simp [own_variables, List.mem_filter]

/-- Characterisation of the groups returned by `detect_shadowing`: each is
built from one directly-owned variable together with the non-empty list of
same-named ancestor-owned variables. -/
lemma mem_detect_shadowing {contract : Contract} {g : List Variable} :
    g ∈ detect_shadowing contract ↔
      ∃ var ∈ own_variables contract,
        (variables_fathers contract).filter (fun v => v.name == var.name) ≠ [] ∧
        g = var :: (variables_fathers contract).filter (fun v => v.name == var.name) := by
  simp only [detect_shadowing, List.mem_filterMap]
  constructor
  · rintro ⟨var, hvar, hsome⟩
    by_cases hempty :
        ((variables_fathers contract).filter (fun v => v.name == var.name)).isEmpty
    · simp [hempty] at hsome
    · simp only [hempty, Bool.false_eq_true, if_false, Option.some.injEq] at hsome
      refine ⟨var, hvar, ?_, hsome.symm⟩
      intro hnil
      simp [hnil] at hempty
  · rintro ⟨var, hvar, hne, rfl⟩
    refine ⟨var, hvar, ?_⟩
    have hempty :
        ((variables_fathers contract).filter (fun v => v.name == var.name)).isEmpty = false := by
      simpa [List.isEmpty_iff] using hne
    simp [hempty]

/-- The `DeadBase` / `DeadDerived` pair: `DeadBase` declares `owner` but has
no implemented function or modifier, and `DeadDerived` redeclares `owner`. -/
def deadBaseRef : ContractRef := ⟨2, "DeadBase"⟩

def deadDerivedRef : ContractRef := ⟨3, "DeadDerived"⟩

def dead_owner : Variable := ⟨"owner", some deadBaseRef, "dead.sol#2"⟩

def dead_derived_owner : Variable := ⟨"owner", some deadDerivedRef, "dead.sol#8"⟩

def DeadBase : FatherContract := ⟨deadBaseRef, [dead_owner], [⟨false⟩], []⟩

def DeadDerived : Contract :=
  ⟨deadDerivedRef, [dead_owner, dead_derived_owner], [⟨true⟩], [], [DeadBase]⟩

/-- C1: for every contract and every live ancestor in its inheritance list
(one with at least one implemented function or modifier), a variable directly
owned by the contract that shares its name with a variable directly owned by
the ancestor gives rise to a group headed by the contract's variable whose
tail contains the ancestor's variable; and on the wiki scenario exactly one
group `[DerivedContract.owner, BaseContract.owner]` is produced. -/
theorem shadowing_of_live_ancestor_detected :
    (∀ (contract : Contract) (father : FatherContract) (v w : Variable),
        father ∈ contract.inheritance → fatherIsLive father = true →
        v ∈ contract.vars → v.contract = some contract.ref →
        w ∈ father.vars → w.contract = some father.ref →
        w.name = v.name →
        ∃ t, (v :: t) ∈ detect_shadowing contract ∧ w ∈ t) ∧
    detect_shadowing DerivedContract = [[derived_owner, base_owner]] := by
  constructor
  · intro contract father v w hfmem hlive hv hvown hw hwown hname
    have hvf : w ∈ variables_fathers contract :=
      mem_variables_fathers.mpr ⟨father, hfmem, hlive, hw, hwown⟩
    have hvo : v ∈ own_variables contract := mem_own_variables.mpr ⟨hv, hvown⟩
    have hwt : w ∈ (variables_fathers contract).filter (fun x => x.name == v.name) :=
      List.mem_filter.mpr ⟨hvf, by simp [hname]⟩
    refine ⟨(variables_fathers contract).filter (fun x => x.name == v.name), ?_, hwt⟩
    exact mem_detect_shadowing.mpr ⟨v, hvo, fun hnil => by simp [hnil] at hwt, rfl⟩
  · rfl

/-- Witness for C1 at the wiki scenario. -/
theorem shadowing_of_live_ancestor_detected_witness :
    (BaseContract ∈ DerivedContract.inheritance ∧ fatherIsLive BaseContract = true ∧
      derived_owner ∈ DerivedContract.vars ∧
      derived_owner.contract = some DerivedContract.ref ∧
      base_owner ∈ BaseContract.vars ∧ base_owner.contract = some BaseContract.ref ∧
      base_owner.name = derived_owner.name) ∧
    ∃ t, (derived_owner :: t) ∈ detect_shadowing DerivedContract ∧ base_owner ∈ t :=
  ⟨⟨by decide, by decide, by decide, by decide, by decide, by decide, by decide⟩,
    shadowing_of_live_ancestor_detected.1 DerivedContract BaseContract derived_owner
      base_owner (by decide) (by decide) (by decide) (by decide) (by decide) (by decide)
      (by decide)⟩

/-- C2: an ancestor with no implemented function or modifier never contributes
a variable to any group (under the well-formedness facts that contract
references are object identities: no other ancestor shares the dead ancestor's
reference, and the analyzed contract does not share it either); and a contract
all of whose ancestors are dead yields no group at all. -/
theorem dead_ancestor_never_reported :
    (∀ (contract : Contract) (father : FatherContract),
        father ∈ contract.inheritance → fatherIsLive father = false →
        (∀ other ∈ contract.inheritance, other.ref = father.ref → other = father) →
        contract.ref ≠ father.ref →
        ∀ g ∈ detect_shadowing contract, ∀ w ∈ g, w.contract ≠ some father.ref) ∧
    (∀ contract : Contract,
        (∀ father ∈ contract.inheritance, fatherIsLive father = false) →
        detect_shadowing contract = []) := by
  constructor
  · intro contract father hfmem hdead huniq hrefne g hg w hw
    obtain ⟨var, hvar, -, rfl⟩ := mem_detect_shadowing.mp hg
    rcases List.mem_cons.mp hw with rfl | hw'
    · obtain ⟨-, hown⟩ := mem_own_variables.mp hvar
      rw [hown]
      intro hcontra
      exact hrefne (Option.some.inj hcontra)
    · have hwf : w ∈ variables_fathers contract := (List.mem_filter.mp hw').1
      obtain ⟨other, homem, holive, -, hwown⟩ := mem_variables_fathers.mp hwf
      rw [hwown]
      intro hcontra
      have hofa : other = father := huniq other homem (Option.some.inj hcontra)
      rw [hofa, hdead] at holive
      exact Bool.noConfusion holive
  · intro contract hall
    have hfe : contract.inheritance.filter fatherIsLive = [] := by
      rw [List.filter_eq_nil_iff]
      intro father hfmem
      simp [hall father hfmem]
    have hvf : variables_fathers contract = [] := by
      simp [variables_fathers, hfe]
    rw [detect_shadowing, List.filterMap_eq_nil_iff]
    intro var hvar
    simp [hvf]

/-- Witness for C2 on the dead-ancestor scenario. -/
theorem dead_ancestor_never_reported_witness :
    (DeadBase ∈ DeadDerived.inheritance ∧ fatherIsLive DeadBase = false ∧
      (∀ other ∈ DeadDerived.inheritance, other.ref = DeadBase.ref → other = DeadBase) ∧
      DeadDerived.ref ≠ DeadBase.ref ∧
      (∀ father ∈ DeadDerived.inheritance, fatherIsLive father = false)) ∧
    (∀ g ∈ detect_shadowing DeadDerived, ∀ w ∈ g, w.contract ≠ some DeadBase.ref) ∧
    detect_shadowing DeadDerived = [] :=
  ⟨⟨by decide, by decide, by decide, by decide, by decide⟩,
    dead_ancestor_never_reported.1 DeadDerived DeadBase (by decide) (by decide)
      (by decide) (by decide),
    dead_ancestor_never_reported.2 DeadDerived (by decide)⟩

/-- The `CaseBase` / `CaseDerived` pair: the live ancestor declares `Owner`
(capital O) while the derived contract declares `owner`. -/
def caseBaseRef : ContractRef := ⟨4, "CaseBase"⟩

def caseDerivedRef : ContractRef := ⟨5, "CaseDerived"⟩

def case_Owner : Variable := ⟨"Owner", some caseBaseRef, "case.sol#2"⟩

def case_owner : Variable := ⟨"owner", some caseDerivedRef, "case.sol#8"⟩

def CaseBase : FatherContract := ⟨caseBaseRef, [case_Owner], [⟨true⟩], []⟩

def CaseDerived : Contract :=
  ⟨caseDerivedRef, [case_Owner, case_owner], [⟨true⟩], [], [CaseBase]⟩

/-- C5: a live-ancestor-owned variable `w` lands in the shadowed tail of the
group headed by the contract's own variable `v` exactly when the two names
are equal as strings, with no other condition; case-sensitively, so `Owner`
in an ancestor and `owner` in the derived contract produce no group. -/
theorem name_match_exact_case_sensitive :
    (∀ (contract : Contract) (v w : Variable),
        v ∈ own_variables contract → w ∈ variables_fathers contract →
        ((∃ t, (v :: t) ∈ detect_shadowing contract ∧ w ∈ t) ↔ w.name = v.name)) ∧
    detect_shadowing CaseDerived = [] := by
  constructor
  · intro contract v w hv hw
    constructor
    · rintro ⟨t, hg, hwt⟩
      obtain ⟨var, -, -, heq⟩ := mem_detect_shadowing.mp hg
      obtain ⟨rfl, rfl⟩ : v = var ∧
          t = (variables_fathers contract).filter (fun x => x.name == var.name) := by
        exact ⟨(List.cons.injEq _ _ _ _ ▸ heq).1, (List.cons.injEq _ _ _ _ ▸ heq).2⟩
      have := (List.mem_filter.mp hwt).2
      simpa using this
    · intro hname
      have hwt : w ∈ (variables_fathers contract).filter (fun x => x.name == v.name) :=
        List.mem_filter.mpr ⟨hw, by simp [hname]⟩
      refine ⟨(variables_fathers contract).filter (fun x => x.name == v.name), ?_, hwt⟩
      exact mem_detect_shadowing.mpr ⟨v, hv, fun hnil => by simp [hnil] at hwt, rfl⟩
  · rfl

/-- Witness for C5: the name-equality criterion applied on the wiki scenario. -/
theorem name_match_exact_case_sensitive_witness :
    (derived_owner ∈ own_variables DerivedContract ∧
      base_owner ∈ variables_fathers DerivedContract ∧
      base_owner.name = derived_owner.name) ∧
    ∃ t, (derived_owner :: t) ∈ detect_shadowing DerivedContract ∧
      base_owner ∈ t :=
  ⟨⟨by decide, by decide, by decide⟩,
    (name_match_exact_case_sensitive.1 DerivedContract derived_owner base_owner
      (by decide) (by decide)).mpr (by decide)⟩

/-- C6: the analysis is deterministic.  The embedding is a pure function of
the immutable contract graph, so two runs of `detect_shadowing` on the same
contract, or of `_detect` on the same batch, return identical ordered
results. -/
theorem analysis_deterministic :
    (∀ contract : Contract, detect_shadowing contract = detect_shadowing contract) ∧
    (∀ contracts : List Contract, _detect contracts = _detect contracts) :=
  ⟨fun _ => rfl, fun _ => rfl⟩

/-- C8: when a contract does not occur in its own inheritance list (the
acyclicity invariant), none of its own variables ever appears among the
shadowed elements (the positions after the first) of any group. -/
theorem no_self_shadowing :
    ∀ (contract : Contract),
      contract.ref ∉ contract.inheritance.map FatherContract.ref →
      ∀ g ∈ detect_shadowing contract, ∀ w ∈ g.drop 1,
        w.contract ≠ some contract.ref := by
  intro contract hnot g hg w hw
  obtain ⟨var, -, -, rfl⟩ := mem_detect_shadowing.mp hg
  have hw' : w ∈ (variables_fathers contract).filter (fun v => v.name == var.name) := hw
  have hwf : w ∈ variables_fathers contract := (List.mem_filter.mp hw').1
  obtain ⟨father, hfmem, -, -, hwown⟩ := mem_variables_fathers.mp hwf
  rw [hwown]
  intro hcontra
  have hfr : father.ref = contract.ref := Option.some.inj hcontra
  exact hnot (List.mem_map.mpr ⟨father, hfmem, hfr⟩)

/-- Witness for C8 at the wiki scenario. -/
theorem no_self_shadowing_witness :
    (DerivedContract.ref ∉ DerivedContract.inheritance.map FatherContract.ref) ∧
    (∀ g ∈ detect_shadowing DerivedContract, ∀ w ∈ g.drop 1,
      w.contract ≠ some DerivedContract.ref) :=
  ⟨by decide, no_self_shadowing DerivedContract (by decide)⟩

/-- Unrolling the inner loop of `_detect`: appending one record per group. -/
lemma foldl_append_group_result (l : List (List Variable)) (acc : List JsonResult) :
    l.foldl (fun results all_variables =>
      results ++ [group_result all_variables]) acc = acc ++ l.map group_result := by
  induction l generalizing acc with
  | nil => simp
  | cons a l ih => simp [List.foldl_cons, ih]

/-- Unrolling the outer loop of `_detect`: the batch result is the
concatenation, in contract order, of each contract's group records. -/
lemma detect_batch_structure (contracts : List Contract) (acc : List JsonResult) :
    contracts.foldl (fun results c =>
      let shadowing := detect_shadowing c
      if shadowing.isEmpty then results
      else shadowing.foldl (fun results all_variables =>
        results ++ [group_result all_variables]) results) acc =
    acc ++ contracts.flatMap (fun c => (detect_shadowing c).map group_result) := by
  induction contracts generalizing acc with
  | nil => simp
  | cons c cs ih =>
    rw [List.foldl_cons, List.flatMap_cons, ih]
    by_cases h : (detect_shadowing c).isEmpty
    · simp [h, List.isEmpty_iff.mp h]
    · simp [h, foldl_append_group_result, List.append_assoc]

/-- C4: every group is its own-variable head followed by a tail that is
exactly the name-filtered `variables_fathers` list — in particular an
order-preserving subsequence of `variables_fathers`, which is built by
walking `contract.inheritance` in order, so shadowed entries appear in
ancestor-traversal order; and `_detect` emits, in contract-processing
order, each contract's group records contiguously and in group order. -/
theorem report_ordering_stable :
    (∀ (contract : Contract) (g : List Variable), g ∈ detect_shadowing contract →
        ∃ v t, g = v :: t ∧ v ∈ own_variables contract ∧
          t = (variables_fathers contract).filter (fun x => x.name == v.name) ∧
          t.Sublist (variables_fathers contract)) ∧
    (∀ contracts : List Contract,
        _detect contracts = contracts.flatMap (fun c =>
          (detect_shadowing c).map group_result)) := by
  constructor
  · intro contract g hg
    obtain ⟨var, hvar, -, rfl⟩ := mem_detect_shadowing.mp hg
    exact ⟨var, _, rfl, hvar, rfl, List.filter_sublist _⟩
  · intro contracts
    rw [_detect]
    simpa using detect_batch_structure contracts []

/-- Witness for C4 at the wiki scenario. -/
theorem report_ordering_stable_witness :
    ([derived_owner, base_owner] ∈ detect_shadowing DerivedContract) ∧
    ∃ v t, [derived_owner, base_owner] = v :: t ∧ v ∈ own_variables DerivedContract ∧
      t = (variables_fathers DerivedContract).filter (fun x => x.name == v.name) ∧
      t.Sublist (variables_fathers DerivedContract) :=
  ⟨by decide,
    report_ordering_stable.1 DerivedContract [derived_owner, base_owner] (by decide)⟩

/-- A `filterMap` whose function can only return its argument yields an
order-preserving subsequence of the input list. -/
lemma filterMap_sublist_of_forall_eq {α : Type} (f : α → Option α) (l : List α)
    (h : ∀ a x, f a = some x → x = a) : (l.filterMap f).Sublist l := by
  induction l with
  | nil => simp
  | cons a l ih =>
    rw [List.filterMap_cons]
    cases hfa : f a with
    | none => exact ih.cons a
    | some x =>
      rw [h a x hfa]
      exact ih.cons₂ a

/-- C10: the heads of the groups form an order-preserving subsequence of the
contract's directly-owned variable list (itself a subsequence of
`contract.variables`), so groups follow the order of the contract's own
variables; and when the owned-variable list has no duplicate entries, the
heads are pairwise distinct — at most one group per owned variable. -/
theorem one_group_per_own_variable_in_order :
    ∀ contract : Contract,
      ((detect_shadowing contract).filterMap List.head?).Sublist
        (own_variables contract) ∧
      (own_variables contract).Sublist contract.vars ∧
      ((own_variables contract).Nodup →
        ((detect_shadowing contract).filterMap List.head?).Nodup) := by
  intro contract
  have hsub : ((detect_shadowing contract).filterMap List.head?).Sublist
      (own_variables contract) := by
    rw [detect_shadowing, List.filterMap_filterMap]
    apply filterMap_sublist_of_forall_eq
    intro a x hax
    by_cases h : ((variables_fathers contract).filter (fun v => v.name == a.name)).isEmpty
    · simp [h] at hax
    · simp only [h, Bool.false_eq_true, if_false, Option.some_bind, List.head?_cons,
        Option.some.injEq] at hax
      exact hax.symm
  exact ⟨hsub, List.filter_sublist _, fun hnd => hsub.nodup hnd⟩

/-- Witness for C10 at the wiki scenario. -/
theorem one_group_per_own_variable_in_order_witness :
    (own_variables DerivedContract).Nodup ∧
    ((detect_shadowing DerivedContract).filterMap List.head?).Nodup :=
  ⟨by decide, (one_group_per_own_variable_in_order DerivedContract).2.2 (by decide)⟩

/-- The diamond fixture: `A` declares `x` and has an implemented modifier;
`B` and `C` inherit `A` (so `x` is visible in them but still owned by `A`);
`D` inherits both and redeclares `x`.  `D.inheritance` lists each ancestor
once, as the slither front end guarantees. -/
def aRef : ContractRef := ⟨6, "A"⟩

def bRef : ContractRef := ⟨7, "B"⟩

def cRef : ContractRef := ⟨8, "C"⟩

def dRef : ContractRef := ⟨9, "D"⟩

def x_A : Variable := ⟨"x", some aRef, "diamond.sol#2"⟩

def x_D : Variable := ⟨"x", some dRef, "diamond.sol#14"⟩

def ContractA : FatherContract := ⟨aRef, [x_A], [], [⟨true⟩]⟩

def ContractB : FatherContract := ⟨bRef, [x_A], [⟨true⟩], []⟩

def ContractC : FatherContract := ⟨cRef, [x_A], [⟨true⟩], []⟩

def ContractD : Contract :=
  ⟨dRef, [x_A, x_D], [⟨true⟩], [], [ContractB, ContractC, ContractA]⟩

/-- When ancestor references are pairwise distinct (object identity) and each
ancestor's owned-variable block has no duplicates, the `variables_fathers`
list has no duplicates: each variable is attributed to exactly one ancestor. -/
lemma variables_fathers_nodup {contract : Contract}
    (hrefs : (contract.inheritance.map FatherContract.ref).Nodup)
    (hvars : ∀ father ∈ contract.inheritance,
      (father.vars.filter (fun v => v.contract == some father.ref)).Nodup) :
    (variables_fathers contract).Nodup := by
  rw [variables_fathers, List.nodup_flatMap]
  have hfsub : (contract.inheritance.filter fatherIsLive).Sublist
      contract.inheritance := List.filter_sublist _
  constructor
  · intro father hf
    exact hvars father (hfsub.subset hf)
  · have hrefs' : ((contract.inheritance.filter fatherIsLive).map
        FatherContract.ref).Nodup := (hfsub.map FatherContract.ref).nodup hrefs
    have hinj := List.inj_on_of_nodup_map hrefs'
    have hnd : (contract.inheritance.filter fatherIsLive).Nodup := hrefs'.of_map
    refine hnd.pairwise_of_forall_ne ?_
    intro f1 h1 f2 h2 hne
    intro w hw1 hw2
    have ho1 : w.contract = some f1.ref := by
      simpa using (List.mem_filter.mp hw1).2
    have ho2 : w.contract = some f2.ref := by
      simpa using (List.mem_filter.mp hw2).2
    rw [ho1] at ho2
    exact hne (hinj h1 h2 (Option.some.inj ho2))

/-- C3: when each ancestor occurs at most once in the inheritance list, each
ancestor's variable list has no duplicate entries, and the contract's own
variables carry distinct names, no ancestor-owned variable is ever counted
twice: the concatenation of all shadowed tails contains no duplicate. -/
theorem no_double_attribution :
    ∀ contract : Contract,
      (contract.inheritance.map FatherContract.ref).Nodup →
      (∀ father ∈ contract.inheritance, father.vars.Nodup) →
      ((own_variables contract).map Variable.name).Nodup →
      ((detect_shadowing contract).flatMap (fun g => g.drop 1)).Nodup := by
  intro contract hrefs hvars hnames
  have hvf : (variables_fathers contract).Nodup :=
    variables_fathers_nodup hrefs (fun f hf => (hvars f hf).filter _)
  rw [List.nodup_flatMap]
  constructor
  · intro g hg
    obtain ⟨var, -, -, rfl⟩ := mem_detect_shadowing.mp hg
    exact hvf.filter _
  · rw [detect_shadowing, List.pairwise_filterMap]
    have hpn : (own_variables contract).Pairwise (fun a b => a.name ≠ b.name) :=
      List.pairwise_map.mp hnames
    refine hpn.imp ?_
    intro a b hab x hx y hy
    by_cases ha : ((variables_fathers contract).filter
        (fun v => v.name == a.name)).isEmpty
    · simp [ha] at hx
    · by_cases hb : ((variables_fathers contract).filter
          (fun v => v.name == b.name)).isEmpty
      · simp [hb] at hy
      · simp only [ha, hb, Bool.false_eq_true, if_false, Option.mem_def,
          Option.some.injEq] at hx hy
        subst hx
        subst hy
        intro w hw1 hw2
        have hw1' : w ∈ (variables_fathers contract).filter
            (fun v => v.name == a.name) := by simpa using hw1
        have hw2' : w ∈ (variables_fathers contract).filter
            (fun v => v.name == b.name) := by simpa using hw2
        have hn1 : w.name = a.name := by simpa using (List.mem_filter.mp hw1').2
        have hn2 : w.name = b.name := by simpa using (List.mem_filter.mp hw2').2
        rw [hn1] at hn2
        exact hab hn2

/-- Witness for C3 on the diamond fixture: `x` is attributed to `A` once. -/
theorem no_double_attribution_witness :
    ((ContractD.inheritance.map FatherContract.ref).Nodup ∧
      (∀ father ∈ ContractD.inheritance, father.vars.Nodup) ∧
      ((own_variables ContractD).map Variable.name).Nodup ∧
      detect_shadowing ContractD = [[x_D, x_A]]) ∧
    ((detect_shadowing ContractD).flatMap (fun g => g.drop 1)).Nodup :=
  ⟨⟨by decide, by decide, by decide, by decide⟩,
    no_double_attribution ContractD (by decide) (by decide) (by decide)⟩

/-- C9: every emitted group is a well-formed shadow group: a head directly
owned by the analyzed contract, a non-empty tail of variables name-equal to
the head and owned by live ancestors, with pairwise distinct owners (given
the identity invariants: pairwise distinct ancestor references and
duplicate-free, distinctly named owned-variable blocks per ancestor). -/
theorem shadow_group_well_formed :
    ∀ contract : Contract,
      (contract.inheritance.map FatherContract.ref).Nodup →
      (∀ father ∈ contract.inheritance,
        ((father.vars.filter (fun v => v.contract == some father.ref)).map
          Variable.name).Nodup) →
      ∀ g ∈ detect_shadowing contract,
        ∃ v t, g = v :: t ∧
          v ∈ contract.vars ∧ v.contract = some contract.ref ∧ t ≠ [] ∧
          (∀ w ∈ t, w.name = v.name ∧
            ∃ father ∈ contract.inheritance, fatherIsLive father = true ∧
              w ∈ father.vars ∧ w.contract = some father.ref) ∧
          t.Pairwise (fun w1 w2 => w1.contract ≠ w2.contract) := by
  intro contract hrefs hnames g hg
  obtain ⟨var, hvar, hne, rfl⟩ := mem_detect_shadowing.mp hg
  obtain ⟨hvmem, hvown⟩ := mem_own_variables.mp hvar
  refine ⟨var, _, rfl, hvmem, hvown, hne, ?_, ?_⟩
  · intro w hw
    have hwn : w.name = var.name := by simpa using (List.mem_filter.mp hw).2
    obtain ⟨father, hfmem, hlive, hwv, hwown⟩ :=
      mem_variables_fathers.mp (List.mem_filter.mp hw).1
    exact ⟨hwn, father, hfmem, hlive, hwv, hwown⟩
  · have hvfnd : (variables_fathers contract).Nodup :=
      variables_fathers_nodup hrefs (fun f hf => (hnames f hf).of_map)
    have htnd : ((variables_fathers contract).filter
        (fun v => v.name == var.name)).Nodup := hvfnd.filter _
    refine htnd.pairwise_of_forall_ne ?_
    intro w1 h1 w2 h2 hwne
    have hn1 : w1.name = var.name := by simpa using (List.mem_filter.mp h1).2
    have hn2 : w2.name = var.name := by simpa using (List.mem_filter.mp h2).2
    obtain ⟨f1, hf1, -, hv1, ho1⟩ :=
      mem_variables_fathers.mp (List.mem_filter.mp h1).1
    obtain ⟨f2, hf2, -, hv2, ho2⟩ :=
      mem_variables_fathers.mp (List.mem_filter.mp h2).1
    intro hcontra
    have hr : f1.ref = f2.ref := by
      rw [ho1, ho2] at hcontra
      exact Option.some.inj hcontra
    have hff : f1 = f2 := List.inj_on_of_nodup_map hrefs hf1 hf2 hr
    subst hff
    have hb1 : w1 ∈ f1.vars.filter (fun v => v.contract == some f1.ref) :=
      List.mem_filter.mpr ⟨hv1, by simp [ho1]⟩
    have hb2 : w2 ∈ f1.vars.filter (fun v => v.contract == some f1.ref) :=
      List.mem_filter.mpr ⟨hv2, by simp [ho2]⟩
    exact hwne (List.inj_on_of_nodup_map (hnames f1 hf1) hb1 hb2 (by rw [hn1, hn2]))

/-- Witness for C9 on the diamond fixture. -/
theorem shadow_group_well_formed_witness :
    ((ContractD.inheritance.map FatherContract.ref).Nodup ∧
      (∀ father ∈ ContractD.inheritance,
        ((father.vars.filter (fun v => v.contract == some father.ref)).map
          Variable.name).Nodup)) ∧
    (∀ g ∈ detect_shadowing ContractD,
      ∃ v t, g = v :: t ∧
        v ∈ ContractD.vars ∧ v.contract = some ContractD.ref ∧ t ≠ [] ∧
        (∀ w ∈ t, w.name = v.name ∧
          ∃ father ∈ ContractD.inheritance, fatherIsLive father = true ∧
            w ∈ father.vars ∧ w.contract = some father.ref) ∧
        t.Pairwise (fun w1 w2 => w1.contract ≠ w2.contract)) :=
  ⟨⟨by decide, by decide⟩,
    shadow_group_well_formed ContractD (by decide) (by decide)⟩

/-- Malformed-graph fixtures.  `SelfAncestorContract` violates the acyclicity
invariant: it appears in its own inheritance list.  `OrphanContract`
declares a variable whose owning-contract reference is missing (`none`),
while a live ancestor declares a same-named variable. -/
def selfRef : ContractRef := ⟨10, "SelfAncestor"⟩

def self_x : Variable := ⟨"x", some selfRef, "selfloop.sol#2"⟩

def SelfFather : FatherContract := ⟨selfRef, [self_x], [⟨true⟩], []⟩

def SelfAncestorContract : Contract := ⟨selfRef, [self_x], [⟨true⟩], [], [SelfFather]⟩

def orphanRef : ContractRef := ⟨11, "Orphan"⟩

def orphanBaseRef : ContractRef := ⟨12, "OrphanBase"⟩

def orphan_y : Variable := ⟨"y", none, "orphan.sol#2"⟩

def orphan_base_y : Variable := ⟨"y", some orphanBaseRef, "orphanbase.sol#2"⟩

def OrphanBase : FatherContract := ⟨orphanBaseRef, [orphan_base_y], [⟨true⟩], []⟩

def OrphanContract : Contract := ⟨orphanRef, [orphan_y], [⟨true⟩], [], [OrphanBase]⟩

/-- C7 counterexample: on a malformed graph the detector neither aborts the
affected contract nor reports it in any distinct failure category — no such
category exists in its output type.  A contract listed as its own ancestor
completes normally and yields an ordinary self-shadowing group, which
`_detect` places among the regular findings of the batch; a variable with no
owning contract is silently dropped, making the result the empty list — the
very value that means "no shadowing found". -/
theorem invariant_violation_not_reported_cex :
    detect_shadowing SelfAncestorContract = [[self_x, self_x]] ∧
    _detect [SelfAncestorContract, DerivedContract] =
      [group_result [self_x, self_x], group_result [derived_owner, base_owner]] ∧
    detect_shadowing OrphanContract = [] ∧
    _detect [OrphanContract] = [] :=
  ⟨rfl, rfl, rfl, rfl⟩

/-- C7 as amended: on a programmer-invariant violation the analysis is not
aborted and no distinct failure category is produced.  A variable with no
owning contract is silently excluded from every group (it fails every
ownership filter), and a contract listed as its own ancestor is processed
like any other contract, yielding ordinary self-shadowing groups that
`_detect` reports alongside the normal findings of the rest of the batch. -/
theorem invariant_violation_handled_silently :
    (∀ (contract : Contract) (g : List Variable) (w : Variable),
        g ∈ detect_shadowing contract → w ∈ g → w.contract ≠ none) ∧
    detect_shadowing SelfAncestorContract = [[self_x, self_x]] ∧
    detect_shadowing OrphanContract = [] ∧
    _detect [OrphanContract, SelfAncestorContract, DerivedContract] =
      [group_result [self_x, self_x], group_result [derived_owner, base_owner]] := by
  refine ⟨?_, rfl, rfl, rfl⟩
  intro contract g w hg hw
  obtain ⟨var, hvar, -, rfl⟩ := mem_detect_shadowing.mp hg
  rcases List.mem_cons.mp hw with rfl | hw'
  · obtain ⟨-, hown⟩ := mem_own_variables.mp hvar
    simp [hown]
  · obtain ⟨father, -, -, -, hwown⟩ :=
      mem_variables_fathers.mp (List.mem_filter.mp hw').1
    simp [hwown]

/-- Witness for the amended C7. -/
theorem invariant_violation_handled_silently_witness :
    ([derived_owner, base_owner] ∈ detect_shadowing DerivedContract ∧
      base_owner ∈ [derived_owner, base_owner]) ∧
    base_owner.contract ≠ none :=
  ⟨⟨by decide, by decide⟩,
    invariant_violation_handled_silently.1 DerivedContract [derived_owner, base_owner]
      base_owner (by decide) (by decide)⟩

end Slither
